import Mathlib

/-!
Shallow embedding of the falling-rock simulation in `src/src/bin/17.rs`.

The chamber and rocks are 7-wide grids of cells, represented as lists of
rows (bottom row first), each row a list of 7 natural numbers (`ndarray`
`i8` values, always small and non-negative here).  Rust panics (malformed
wind character, `usize` underflow in the gravity test, modulo by zero on
an empty wind sequence, `unwrap` of `None`, division by zero) are
modelled as `Except.error` values with a dedicated error code each.
-/

abbrev Grid := List (List Nat)

/-- The `####` rock (`Line` in the source), bottom row first. -/
def lineRock : Grid := [[0,0,1,1,1,1,0]]

/-- The plus-shaped rock (`Plus` in the source), bottom row first. -/
def plusRock : Grid := [[0,0,0,1,0,0,0],[0,0,1,1,1,0,0],[0,0,0,1,0,0,0]]

/-- The corner rock (`L` in the source), bottom row first. -/
def ellRock : Grid := [[0,0,1,1,1,0,0],[0,0,0,0,1,0,0],[0,0,0,0,1,0,0]]

/-- The vertical rock (`I` in the source), bottom row first. -/
def tallRock : Grid := [[0,0,1,0,0,0,0],[0,0,1,0,0,0,0],[0,0,1,0,0,0,0],[0,0,1,0,0,0,0]]

/-- The square rock (`O` in the source). -/
def squareRock : Grid := [[0,0,1,1,0,0,0],[0,0,1,1,0,0,0]]

/-- The round-robin rock catalog, `rocks()` in the source. -/
def rocks : List Grid := [lineRock, plusRock, ellRock, tallRock, squareRock]

/-- Shape selected for a given position of the cycled, enumerated catalog. -/
def rockShape (i : Nat) : Grid := rocks.getD (i % 5) []

/-- Sum of column `j` of a grid, `grid.slice(s![.., j]).sum()` in the source. -/
def colSum (g : Grid) (j : Nat) : Nat := (g.map (fun r => r.getD j 0)).sum

/-- `try_push_left`: shift the rock one column left unless column 0 is occupied. -/
def try_push_left (rock : Grid) : Grid :=
  if 0 < colSum rock 0 then rock else rock.map (fun r => r.tail ++ [0])

/-- `try_push_right`: shift the rock one column right unless column 6 is occupied. -/
def try_push_right (rock : Grid) : Grid :=
  if 0 < colSum rock 6 then rock else rock.map (fun r => 0 :: r.take 6)

/-- Row `y` of a grid (rows above the top read as empty). -/
def rowAt (g : Grid) (y : Nat) : List Nat := g.getD y []

/-- `intersects_at`: does the rock, its bottom row placed at chamber row `y`,
overlap an occupied chamber cell?  Mirrors the source: a rock row is compared
only when its chamber row index is below the chamber's current height, and an
overlap is a cell where the element-wise sum exceeds 1. -/
def intersects_at (chamber rock : Grid) (y : Nat) : Bool :=
  (List.range rock.length).any fun i =>
    decide (y + i < chamber.length) &&
      ((List.zipWith (· + ·) (rowAt chamber (y + i)) (rowAt rock i)).any fun s =>
        decide (1 < s))

/-- Grow the chamber with empty rows up to `n` rows, as the `concatenate`
call in `fall_rock` does before committing a settled rock. -/
def extendChamber (c : Grid) (n : Nat) : Grid :=
  if c.length < n then c ++ List.replicate (n - c.length) (List.replicate 7 0) else c

/-- Element-wise add the rock's rows onto the leading rows of `rows`. -/
def addRowsTo : Grid → Grid → Grid
  | rows, [] => rows
  | [], _ :: _ => []
  | row :: rows, r :: rs => List.zipWith (· + ·) row r :: addRowsTo rows rs

/-- Commit a rock whose bottom row sits at chamber row `y`:
`affected_lanes += &rock` after the chamber has been grown. -/
def place (chamber rock : Grid) (y : Nat) : Grid :=
  let c := extendChamber chamber (y + rock.length)
  c.take y ++ addRowsTo (c.drop y) rock

/-- Error codes standing for the Rust panics reachable from `play`. -/
inductive SimErr
  | badChar
  | underflow
  | emptySeq
  | noCycle
  | divZero
deriving DecidableEq

/-- The cyclic jet-stream iterator: character at absolute position `i`,
`None` when the wind sequence is empty (an empty `cycle()`). -/
def windAt (seq : List Char) (i : Nat) : Option Char :=
  if seq.length = 0 then none else some (seq.getD (i % seq.length) ' ')

/-- One wind-push attempt of the `fall_rock` loop: consume the next wind
character (if any), shift the rock if the shifted copy does not intersect,
and advance the absolute wind position.  A character other than `<` or `>`
is the `panic!()` in the source. -/
def windPush (chamber : Grid) (seq : List Char) (rock : Grid) (idx y : Nat) :
    Except SimErr (Grid × Nat) :=
  match windAt seq idx with
  | none => .ok (rock, idx)
  | some c =>
    if c = '<' then
      .ok ((if intersects_at chamber (try_push_left rock) y then rock
            else try_push_left rock), idx + 1)
    else if c = '>' then
      .ok ((if intersects_at chamber (try_push_right rock) y then rock
            else try_push_right rock), idx + 1)
    else .error .badChar

/-- The descent loop of `fall_rock`.  State: current bottom row `y` of the
rock, current rock cells, absolute wind position, step counter.  Each
iteration attempts one wind push, counts one step, then either rests (the
row below is blocked) or falls one row.  Evaluating `y - 1` at `y = 0`
is the `usize` underflow.  Returns (rock, resting row, steps, wind position). -/
def fallLoop (chamber : Grid) (seq : List Char) :
    Nat → Grid → Nat → Nat → Except SimErr (Grid × Nat × Nat × Nat)
  | y, rock, idx, steps =>
    match windPush chamber seq rock idx y with
    | .error e => .error e
    | .ok (rock2, idx2) =>
      match y with
      | 0 => .error .underflow
      | y2 + 1 =>
        if intersects_at chamber rock2 y2 then .ok (rock2, y2 + 1, steps + 1, idx2)
        else fallLoop chamber seq y2 rock2 idx2 (steps + 1)

/-- `fall_rock`: drop one rock, spawned with its bottom row three rows above
the chamber top, and commit it where it rests.  Returns the new chamber and
the number of loop iterations (wind characters consumed). -/
def fall_rock (chamber rock : Grid) (seq : List Char) (idx : Nat) :
    Except SimErr (Grid × Nat) :=
  match fallLoop chamber seq (chamber.length + 3) rock idx 0 with
  | .error e => .error e
  | .ok (rock2, y, steps, _) => .ok (place chamber rock2 y, steps)

/-- `play_aux` with the plain `i >= n` termination predicate: settle exactly
`n` rocks starting from the given chamber, rock-catalog position and wind
position.  The `% seq.length` on an empty sequence is the Rust modulo-by-zero
panic. -/
def runDrops (seq : List Char) : Nat → Grid → Nat → Nat → Except SimErr Grid
  | 0, chamber, _, _ => .ok chamber
  | n + 1, chamber, rockIdx, jetIdx =>
    match fall_rock chamber (rockShape rockIdx) seq jetIdx with
    | .error e => .error e
    | .ok (c2, steps) =>
      if seq.length = 0 then .error .emptySeq
      else runDrops seq n c2 ((rockIdx + 1) % 5) ((jetIdx + steps) % seq.length)

/-- The tuple destructured from the cycle-detecting `play_aux` call in `play`. -/
structure CycleInfo where
  after_cycle : Grid
  jet_at : Nat
  rock_at : Nat
  cycle_len : Nat
  cycle_height : Nat
  start_h : Nat
  start_steps : Nat
deriving DecidableEq

/-- Fingerprint key: next rock index, wind position, topmost 10 chamber rows. -/
abbrev VisitKey := Nat × Nat × Grid

/-- The `visited` hash map, as an association list (keys are inserted at most once). -/
abbrev VisitMap := List (VisitKey × (Nat × Nat))

/-- Lookup in the `visited` map. -/
def lookupVisited (m : VisitMap) (k : VisitKey) : Option (Nat × Nat) :=
  match m.find? (fun p => decide (p.1 = k)) with
  | some p => some p.2
  | none => none

/-- The first `play_aux` call of `play`: before each drop, stop with `none`
once `i` reaches `num_rounds` (the `Some(None)` branch), otherwise, when the
chamber is at least 10 rows tall, look up the fingerprint of the current
state and stop with the cycle data on a repeat, recording the state when the
fingerprint is new.  `fuel` is `num_rounds - i`, so fuel `0` is `i >= num_rounds`. -/
def detect (seq : List Char) :
    Nat → Nat → Grid → Nat → Nat → VisitMap → Except SimErr (Option CycleInfo)
  | 0, _, _, _, _, _ => .ok none
  | fuel + 1, i, chamber, rockIdx, jetIdx, visited =>
    let cont := fun (v : VisitMap) =>
      match fall_rock chamber (rockShape rockIdx) seq jetIdx with
      | .error e => .error e
      | .ok (c2, steps) =>
        if seq.length = 0 then .error .emptySeq
        else detect seq fuel (i + 1) c2 ((rockIdx + 1) % 5) ((jetIdx + steps) % seq.length) v
    if 10 ≤ chamber.length then
      let key : VisitKey := (rockIdx, jetIdx, chamber.drop (chamber.length - 10))
      match lookupVisited visited key with
      | some (cs, ch) =>
        .ok (some ⟨chamber, jetIdx, rockIdx, i - cs, chamber.length - ch, ch, cs⟩)
      | none => cont (visited ++ [(key, (i, chamber.length))])
    else cont visited

/-- The one-row all-occupied floor the simulation starts from
(`Array2::from_elem((1, 7), 1i8)`). -/
def initialChamber : Grid := [List.replicate 7 1]

/-- `play`: detect a cycle, extrapolate whole cycles arithmetically, replay
the leftover drops from the chamber snapshot taken at the repeat, and
subtract 1 for the floor row.  The `unwrap` of the `Some(None)` outcome and
the division by a zero cycle length are the corresponding Rust panics. -/
def play (num_rounds : Nat) (seq : List Char) : Except SimErr Nat :=
  match detect seq num_rounds 0 initialChamber 0 0 [] with
  | .error e => .error e
  | .ok none => .error .noCycle
  | .ok (some ci) =>
    if ci.cycle_len = 0 then .error .divZero
    else
      let num_cycles := (num_rounds - ci.start_steps) / ci.cycle_len
      let end_garbage_steps := num_rounds - ci.start_steps - num_cycles * ci.cycle_len
      match runDrops seq end_garbage_steps ci.after_cycle ci.rock_at ci.jet_at with
      | .error e => .error e
      | .ok cg =>
        .ok (ci.start_h + num_cycles * ci.cycle_height + (cg.length - ci.after_cycle.length) - 1)

/-- The canonical example wind sequence from the source's tests. -/
def exampleSeq : List Char := ">>><<><>><<<>><>>><<<>>><<<><<<>><>><<>>".toList

set_option maxRecDepth 100000

/-- Sanity check against the source's `_01_falling_rocks` test: the chamber
produced by ten drops of the example sequence, row by row. -/
def expectedTen : Grid := [
  [1,1,1,1,1,1,1],
  [0,0,1,1,1,1,0],
  [0,0,0,1,0,0,0],
  [0,0,1,1,1,0,0],
  [1,1,1,1,1,0,0],
  [0,0,1,0,1,0,0],
  [0,0,1,0,1,0,0],
  [0,0,0,0,1,0,0],
  [0,0,0,0,1,1,0],
  [0,0,0,0,1,1,0],
  [0,1,1,1,1,0,0],
  [0,0,1,0,0,0,0],
  [0,1,1,1,0,0,0],
  [1,1,1,1,1,1,0],
  [1,1,0,0,1,1,0],
  [0,0,0,0,1,1,0],
  [0,0,0,0,1,0,0],
  [0,0,0,0,1,0,0]]

/-- Well-formed grid: rows of width 7, every cell 0 or 1. -/
def Good (g : Grid) : Prop :=
  (∀ r ∈ g, r.length = 7) ∧ ∀ r ∈ g, ∀ x ∈ r, x ≤ 1

/-- All cells of a grid are at most 1, as a boolean check. -/
def cellsLe1 (c : Grid) : Bool := c.all fun r => r.all fun x => decide (x ≤ 1)

/-- The chamber has a bottom row of width 7 with every cell occupied. -/
def Floor (c : Grid) : Prop :=
  0 < c.length ∧ (rowAt c 0).length = 7 ∧ ∀ x ∈ rowAt c 0, 1 ≤ x

/-- The rock's bottom row has an occupied cell (within the 7 columns). -/
def Headed (rock : Grid) : Prop := ∃ j < 7, 1 ≤ (rowAt rock 0).getD j 0

/-- A 7-wide row whose columns 0–3 are open and 4–6 occupied. -/
def shaftRow : List Nat := [0,0,0,0,1,1,1]

/-- Floor plus a 10-row-deep open shaft in columns 0–3 (11 rows). -/
def chamberA : Grid := List.replicate 7 1 :: List.replicate 10 shaftRow

/-- Floor, five fully occupied rows, then a 20-row-deep open shaft in
columns 0–3 (26 rows).  Its topmost 10 rows equal those of `chamberA`. -/
def chamberB : Grid :=
  List.replicate 7 1 :: (List.replicate 5 (List.replicate 7 1) ++ List.replicate 20 shaftRow)

/-- Eleven fully occupied rows. -/
def chamberC : Grid := List.replicate 11 (List.replicate 7 1)

/-- An unoccupied bottom row under ten fully occupied rows; agrees with
`chamberC` on every row from row 1 up. -/
def chamberD : Grid := List.replicate 7 0 :: List.replicate 10 (List.replicate 7 1)

/-- One full drop as a transition on the `play_aux` loop state
(chamber, rock-catalog position, wind position). -/
def stepDrop (seq : List Char) : Grid × Nat × Nat → Except SimErr (Grid × Nat × Nat)
  | (chamber, rockIdx, jetIdx) =>
    match fall_rock chamber (rockShape rockIdx) seq jetIdx with
    | .error e => .error e
    | .ok (c2, steps) =>
      if seq.length = 0 then .error .emptySeq
      else .ok (c2, (rockIdx + 1) % 5, (jetIdx + steps) % seq.length)

/-- `n` consecutive drops on the loop state. -/
def iterDrops (seq : List Char) : Nat → Grid × Nat × Nat → Except SimErr (Grid × Nat × Nat)
  | 0, st => .ok st
  | n + 1, st =>
    match stepDrop seq st with
    | .error e => .error e
    | .ok st2 => iterDrops seq n st2

/-- Every `visited` entry records the step count, chamber height and
fingerprint of an actual earlier prefix of the run from the initial state. -/
def VisitedOk (seq : List Char) (visited : VisitMap) (i : Nat) : Prop :=
  ∀ p ∈ visited, p.2.1 < i ∧
    ∃ c r j, iterDrops seq p.2.1 (initialChamber, 0, 0) = .ok (c, r, j) ∧
      c.length = p.2.2 ∧
      p.1 = (r, j, c.drop (c.length - 10))

/-- The alternating wind sequence on which the detected cycle is unsound. -/
def badSeq : List Char := "<><><><><><><><><><><><><><".toList

/-- The cycle data detected for wind `">"` within 15 drops. -/
def ciW : CycleInfo :=
  match detect ['>'] 15 0 initialChamber 0 0 [] with
  | .ok (some ci) => ci
  | _ => ⟨[], 0, 0, 0, 0, 0, 0⟩

/-- The chamber directly simulated for 15 drops of wind `">"`. -/
def cW15 : Grid :=
  match runDrops ['>'] 15 initialChamber 0 0 with
  | .ok c => c
  | _ => []

/-! ### Basic length lemmas -/

theorem addRowsTo_length (rows rock : Grid) : (addRowsTo rows rock).length = rows.length := by
  induction rows generalizing rock with
  | nil => cases rock <;> rfl
  | cons r rs ih =>
    cases rock with
    | nil => rfl
    | cons a as => simpa [addRowsTo] using ih as

theorem extendChamber_length (c : Grid) (n : Nat) :
    (extendChamber c n).length = max c.length n := by
  unfold extendChamber
  split <;> simp <;> omega

theorem place_length (c rock : Grid) (y : Nat) :
    (place c rock y).length = max c.length (y + rock.length) := by
  unfold place
  have h := extendChamber_length c (y + rock.length)
  simp only [List.length_append, addRowsTo_length, List.length_take, List.length_drop, h]
  omega

theorem fall_rock_elim {chamber rock : Grid} {seq : List Char} {idx : Nat}
    {c2 : Grid} {steps : Nat}
    (h : fall_rock chamber rock seq idx = .ok (c2, steps)) :
    ∃ r2 y i2, fallLoop chamber seq (chamber.length + 3) rock idx 0 = .ok (r2, y, steps, i2) ∧
      c2 = place chamber r2 y := by
  unfold fall_rock at h
  cases hf : fallLoop chamber seq (chamber.length + 3) rock idx 0 with
  | error e => rw [hf] at h; exact Except.noConfusion h
  | ok t =>
    obtain ⟨r2, y, st, i2⟩ := t
    rw [hf] at h
    injection h with hp
    injection hp with hc hst
    exact ⟨r2, y, i2, by rw [hst], hc.symm⟩

theorem fall_rock_length_le {chamber rock : Grid} {seq : List Char} {idx : Nat}
    {c2 : Grid} {steps : Nat}
    (h : fall_rock chamber rock seq idx = .ok (c2, steps)) :
    chamber.length ≤ c2.length := by
  obtain ⟨r2, y, i2, _, hc⟩ := fall_rock_elim h
  rw [hc, place_length]
  exact Nat.le_max_left _ _

theorem runDrops_succ_elim {seq : List Char} {n : Nat} {chamber : Grid}
    {rockIdx jetIdx : Nat} {c : Grid}
    (h : runDrops seq (n + 1) chamber rockIdx jetIdx = .ok c) :
    ∃ c2 steps, fall_rock chamber (rockShape rockIdx) seq jetIdx = .ok (c2, steps) ∧
      seq.length ≠ 0 ∧
      runDrops seq n c2 ((rockIdx + 1) % 5) ((jetIdx + steps) % seq.length) = .ok c := by
  rw [runDrops] at h
  split at h
  next e heq => exact Except.noConfusion h
  next c2 steps heq =>
    split at h
    next hs => exact Except.noConfusion h
    next hs => exact ⟨c2, steps, heq, hs, h⟩

/-- The embedding reproduces the `_01_falling_rocks` unit test of the source
exactly: ten drops of the example wind sequence build this 18-row chamber. -/
theorem ten_drops_match_source_test :
    runDrops exampleSeq 10 initialChamber 0 0 = .ok expectedTen := by rfl

/-- Claim C2: for the canonical example wind sequence, `play` returns 3068
for 2022 target drops and 1514285714288 for 10^12 target drops, matching the
source's `_01_example` and `_02_example` tests. -/
theorem c2_example_answers :
    play 2022 exampleSeq = .ok 3068 ∧
    play 1000000000000 exampleSeq = .ok 1514285714288 := by
  exact ⟨by rfl, by rfl⟩

/-- Claim C5: the chamber never loses rows across a settle, so the stack
height (rows including the floor, hence also rows minus the floor) after
`N + 1` settled rocks is at least the height after `N` settled rocks,
whenever both simulations complete. -/
theorem c5_height_monotone (seq : List Char) (N : Nat) (chamber : Grid)
    (rockIdx jetIdx : Nat) (c1 c2 : Grid)
    (h1 : runDrops seq N chamber rockIdx jetIdx = .ok c1)
    (h2 : runDrops seq (N + 1) chamber rockIdx jetIdx = .ok c2) :
    c1.length ≤ c2.length := by
  induction N generalizing chamber rockIdx jetIdx with
  | zero =>
    rw [runDrops] at h1
    injection h1 with h1
    subst h1
    obtain ⟨c2', steps, hf, _, hrest⟩ := runDrops_succ_elim h2
    rw [runDrops] at hrest
    injection hrest with hrest
    subst hrest
    exact fall_rock_length_le hf
  | succ n ih =>
    obtain ⟨d1, s1, hf1, hs1, hr1⟩ := runDrops_succ_elim h1
    obtain ⟨d2, s2, hf2, hs2, hr2⟩ := runDrops_succ_elim h2
    rw [hf1] at hf2
    injection hf2 with hp
    injection hp with hd hs
    subst hd
    subst hs
    exact ih _ _ _ hr1 hr2

/-- Witness for C5 at a concrete input: one drop with wind `">"` keeps the
height non-decreasing. -/
theorem c5_witness :
    initialChamber.length ≤ ([[1,1,1,1,1,1,1],[0,0,0,1,1,1,1]] : Grid).length :=
  c5_height_monotone ['>'] 0 initialChamber 0 0 initialChamber
    [[1,1,1,1,1,1,1],[0,0,0,1,1,1,1]] rfl rfl

/-- Claim C3 counterexample: with `num_rounds = 0` and wind `">"`, the target
is reached before any fingerprint repeat; direct simulation of 0 drops gives
the initial chamber (reported height 0), but `play` does not return that
height: it hits the `unwrap` of the `Some(None)` outcome, a panic. -/
theorem c3_counterexample :
    play 0 ['>'] = .error SimErr.noCycle ∧
    runDrops ['>'] 0 initialChamber 0 0 = .ok initialChamber ∧
    (Except.error SimErr.noCycle : Except SimErr Nat) ≠ .ok (initialChamber.length - 1) :=
  ⟨rfl, rfl, fun h => Except.noConfusion h⟩

/-- Claim C3 (amended): when the target rock count is reached before any
repeated fingerprint, the extrapolator is never invoked, and `play` panics
(`unwrap` of `None`) instead of returning the directly-simulated height. -/
theorem c3_target_before_cycle_panics (N : Nat) (seq : List Char)
    (h : detect seq N 0 initialChamber 0 0 [] = .ok none) :
    play N seq = .error SimErr.noCycle := by
  unfold play
  rw [h]

/-- Witness for the amended C3 at a concrete input. -/
theorem c3_witness : play 0 ['>'] = .error SimErr.noCycle :=
  c3_target_before_cycle_panics 0 ['>'] rfl

/-- Claim C8 counterexample: the wind sequence `"<<<<x"` contains the
malformed character `x`, yet simulating one drop succeeds (the first drop
consumes only the four `<` characters, so the `x` is silently ignored and
no parse error is surfaced). -/
theorem c8_counterexample :
    ('x' ∈ ['<','<','<','<','x'] ∧ 'x' ≠ '<' ∧ 'x' ≠ '>') ∧
    (runDrops ['<','<','<','<','x'] 1 initialChamber 0 0).isOk = true :=
  ⟨by decide, by rfl⟩

/-- Claim C8 (amended): a malformed wind character is surfaced as a parse
error exactly when a wind-push attempt consumes it; in particular, whenever
the character at the current wind position is outside `{<, >}`, the very
next drop reports the parse error. -/
theorem c8_bad_char_at_pointer (seq : List Char) (chamber : Grid)
    (n rockIdx idx : Nat)
    (hne : seq.length ≠ 0)
    (hl : seq.getD (idx % seq.length) ' ' ≠ '<')
    (hr2 : seq.getD (idx % seq.length) ' ' ≠ '>') :
    runDrops seq (n + 1) chamber rockIdx idx = .error SimErr.badChar := by
  have hwp : ∀ rock y, windPush chamber seq rock idx y = .error SimErr.badChar := by
    intro rock y
    simp only [windPush, windAt, if_neg hne, if_neg hl, if_neg hr2]
  have hfl : fallLoop chamber seq (chamber.length + 3) (rockShape rockIdx) idx 0 =
      .error SimErr.badChar := by
    rw [fallLoop, hwp]
  have hfr : fall_rock chamber (rockShape rockIdx) seq idx = .error SimErr.badChar := by
    unfold fall_rock
    rw [hfl]
  rw [runDrops, hfr]

/-- Witness for the amended C8 at a concrete input. -/
theorem c8_witness : runDrops ['x','<'] 1 initialChamber 0 0 = .error SimErr.badChar :=
  c8_bad_char_at_pointer ['x','<'] initialChamber 0 0 0 (by decide) (by decide) (by decide)

/-! ### Wind pointer accounting -/

theorem windPush_ok_idx {chamber : Grid} {seq : List Char} {rock : Grid}
    {idx y : Nat} {r2 : Grid} {i2 : Nat}
    (hne : seq.length ≠ 0)
    (h : windPush chamber seq rock idx y = .ok (r2, i2)) :
    i2 = idx + 1 := by
  simp only [windPush, windAt, if_neg hne] at h
  split at h
  · injection h with hp
    injection hp with _ hi
    exact hi.symm
  · split at h
    · injection h with hp
      injection hp with _ hi
      exact hi.symm
    · exact Except.noConfusion h

theorem fallLoop_zero (chamber : Grid) (seq : List Char) (rock : Grid)
    (idx steps : Nat) :
    fallLoop chamber seq 0 rock idx steps =
      match windPush chamber seq rock idx 0 with
      | .error e => .error e
      | .ok _ => .error .underflow := by
  rw [fallLoop]
  cases windPush chamber seq rock idx 0 with
  | error e => rfl
  | ok p =>
    obtain ⟨a, b⟩ := p
    rfl

theorem fallLoop_succ (chamber : Grid) (seq : List Char) (k : Nat) (rock : Grid)
    (idx steps : Nat) :
    fallLoop chamber seq (k + 1) rock idx steps =
      match windPush chamber seq rock idx (k + 1) with
      | .error e => .error e
      | .ok (rock2, idx2) =>
        if intersects_at chamber rock2 k then .ok (rock2, k + 1, steps + 1, idx2)
        else fallLoop chamber seq k rock2 idx2 (steps + 1) := by
  rw [fallLoop]

theorem fallLoop_idx_steps (chamber : Grid) (seq : List Char) (hne : seq.length ≠ 0) :
    ∀ y rock idx steps r2 y2 s2 i2,
      fallLoop chamber seq y rock idx steps = .ok (r2, y2, s2, i2) →
      i2 + steps = idx + s2 := by
  intro y
  induction y with
  | zero =>
    intro rock idx steps r2 y2 s2 i2 h
    rw [fallLoop_zero] at h
    split at h
    · exact Except.noConfusion h
    · exact Except.noConfusion h
  | succ k ih =>
    intro rock idx steps r2 y2 s2 i2 h
    rw [fallLoop_succ] at h
    split at h
    · exact Except.noConfusion h
    · next rock2 idx2 heq =>
      have hidx : idx2 = idx + 1 := windPush_ok_idx hne heq
      split at h
      · simp only [Except.ok.injEq, Prod.mk.injEq] at h
        obtain ⟨-, -, hs, hi⟩ := h
        omega
      · have := ih rock2 idx2 (steps + 1) r2 y2 s2 i2 h
        omega

/-- Claim C6: during a rock's descent the wind position advances by exactly
one per wind-push attempt (one attempt per loop iteration, successful or
not), so when the loop returns after `s2` iterations the wind position is
the entry position plus `s2`; reduced modulo the sequence length, this is
exactly the `(jet_stream_index + jet_stream_steps) % len` stored by
`play_aux` after `fall_rock` returns. -/
theorem c6_wind_pointer_advances (chamber : Grid) (seq : List Char)
    (rock : Grid) (y idx : Nat) (r2 : Grid) (y2 s2 i2 : Nat)
    (hne : seq.length ≠ 0)
    (h : fallLoop chamber seq y rock idx 0 = .ok (r2, y2, s2, i2)) :
    i2 = idx + s2 ∧ i2 % seq.length = (idx + s2) % seq.length := by
  have hsum := fallLoop_idx_steps chamber seq hne y rock idx 0 r2 y2 s2 i2 h
  have h1 : i2 = idx + s2 := by omega
  exact ⟨h1, by rw [h1]⟩

/-- Witness for C6 at a concrete input: the first drop with wind `">"`
takes 4 iterations and leaves the wind position at 4. -/
theorem c6_witness :
    (4 : Nat) = 0 + 4 ∧ (4 : Nat) % (['>'] : List Char).length = (0 + 4) % (['>'] : List Char).length :=
  c6_wind_pointer_advances initialChamber ['>'] lineRock 4 0 [[0,0,0,1,1,1,1]] 1 4 4
    (by decide) rfl

/-! ### Which errors each stage can produce -/

theorem windPush_error_badChar {chamber : Grid} {seq : List Char} {rock : Grid}
    {idx y : Nat} {e : SimErr}
    (h : windPush chamber seq rock idx y = .error e) : e = SimErr.badChar := by
  unfold windPush at h
  split at h
  · exact Except.noConfusion h
  · split at h
    · exact Except.noConfusion h
    · split at h
      · exact Except.noConfusion h
      · injection h with h
        exact h.symm

theorem fallLoop_error_cases (chamber : Grid) (seq : List Char) :
    ∀ y rock idx steps e,
      fallLoop chamber seq y rock idx steps = .error e →
      e = SimErr.badChar ∨ e = SimErr.underflow := by
  intro y
  induction y with
  | zero =>
    intro rock idx steps e h
    rw [fallLoop_zero] at h
    split at h
    · next e2 heq =>
      injection h with h
      exact Or.inl (h ▸ windPush_error_badChar heq)
    · injection h with h
      exact Or.inr h.symm
  | succ k ih =>
    intro rock idx steps e h
    rw [fallLoop_succ] at h
    split at h
    · next e2 heq =>
      injection h with h
      exact Or.inl (h ▸ windPush_error_badChar heq)
    · next rock2 idx2 heq =>
      split at h
      · exact Except.noConfusion h
      · exact ih rock2 idx2 (steps + 1) e h

theorem fall_rock_error_cases {chamber rock : Grid} {seq : List Char} {idx : Nat}
    {e : SimErr}
    (h : fall_rock chamber rock seq idx = .error e) :
    e = SimErr.badChar ∨ e = SimErr.underflow := by
  unfold fall_rock at h
  split at h
  · next e2 heq =>
    injection h with h
    exact h ▸ fallLoop_error_cases chamber seq _ rock idx 0 e2 heq
  · exact Except.noConfusion h

theorem runDrops_error_cases {seq : List Char} :
    ∀ {n : Nat} {chamber : Grid} {rockIdx jetIdx : Nat} {e : SimErr},
      runDrops seq n chamber rockIdx jetIdx = .error e →
      e = SimErr.badChar ∨ e = SimErr.underflow ∨ e = SimErr.emptySeq := by
  intro n
  induction n with
  | zero =>
    intro chamber rockIdx jetIdx e h
    exact Except.noConfusion h
  | succ k ih =>
    intro chamber rockIdx jetIdx e h
    rw [runDrops] at h
    split at h
    · next e2 heq =>
      injection h with h
      rcases fall_rock_error_cases heq with h2 | h2
      · exact Or.inl (h ▸ h2)
      · exact Or.inr (Or.inl (h ▸ h2))
    · next c2 steps heq =>
      split at h
      · injection h with h
        exact Or.inr (Or.inr h.symm)
      · exact ih h

theorem lookupVisited_mem {m : VisitMap} {k : VisitKey} {v : Nat × Nat}
    (h : lookupVisited m k = some v) : ∃ key, (key, v) ∈ m := by
  unfold lookupVisited at h
  split at h
  · next p heq =>
    injection h with h
    refine ⟨p.1, ?_⟩
    have hm := List.mem_of_find?_eq_some heq
    subst h
    simpa using hm
  · exact Option.noConfusion h

theorem detect_error_cases (seq : List Char) :
    ∀ fuel i chamber rockIdx jetIdx visited e,
      detect seq fuel i chamber rockIdx jetIdx visited = .error e →
      e = SimErr.badChar ∨ e = SimErr.underflow ∨ e = SimErr.emptySeq := by
  intro fuel
  induction fuel with
  | zero =>
    intro i chamber rockIdx jetIdx visited e h
    exact Except.noConfusion h
  | succ f ih =>
    intro i chamber rockIdx jetIdx visited e h
    rw [detect] at h
    simp only [] at h
    split at h
    · split at h
      · exact Except.noConfusion h
      · split at h
        · next e2 heq =>
          injection h with h
          rcases fall_rock_error_cases heq with h2 | h2
          · exact Or.inl (h ▸ h2)
          · exact Or.inr (Or.inl (h ▸ h2))
        · next c2 steps heq =>
          split at h
          · injection h with h
            exact Or.inr (Or.inr h.symm)
          · exact ih _ _ _ _ _ _ h
    · split at h
      · next e2 heq =>
        injection h with h
        rcases fall_rock_error_cases heq with h2 | h2
        · exact Or.inl (h ▸ h2)
        · exact Or.inr (Or.inl (h ▸ h2))
      · next c2 steps heq =>
        split at h
        · injection h with h
          exact Or.inr (Or.inr h.symm)
        · exact ih _ _ _ _ _ _ h

theorem detect_cycle_pos (seq : List Char) :
    ∀ fuel i chamber rockIdx jetIdx visited ci,
      (∀ p ∈ visited, p.2.1 < i) →
      detect seq fuel i chamber rockIdx jetIdx visited = .ok (some ci) →
      0 < ci.cycle_len := by
  intro fuel
  induction fuel with
  | zero =>
    intro i chamber rockIdx jetIdx visited ci hinv h
    rw [detect] at h
    injection h with h
    exact Option.noConfusion h
  | succ f ih =>
    intro i chamber rockIdx jetIdx visited ci hinv h
    rw [detect] at h
    simp only [] at h
    split at h
    · split at h
      · next cs ch heq =>
        injection h with h
        injection h with h
        obtain ⟨key, hmem⟩ := lookupVisited_mem heq
        have hlt : cs < i := hinv (key, (cs, ch)) hmem
        have : ci.cycle_len = i - cs := by rw [← h]
        omega
      · next heq =>
        split at h
        · exact Except.noConfusion h
        · next c2 steps heq2 =>
          split at h
          · exact Except.noConfusion h
          · refine ih _ _ _ _ _ _ ?_ h
            intro p hp
            rcases List.mem_append.1 hp with hp2 | hp2
            · exact Nat.lt_trans (hinv p hp2) (Nat.lt_succ_self i)
            · rcases List.mem_singleton.1 hp2 with rfl
              exact Nat.lt_succ_self i
    · split at h
      · exact Except.noConfusion h
      · next c2 steps heq2 =>
        split at h
        · exact Except.noConfusion h
        · refine ih _ _ _ _ _ _ ?_ h
          intro p hp
          exact Nat.lt_trans (hinv p hp) (Nat.lt_succ_self i)

/-- Claim C7: whenever a repeated fingerprint is found, the recorded first
occurrence is strictly earlier, so `cycle_step_length` is strictly positive
and the extrapolation arithmetic in `play` never divides by zero: `play`
can never return the division-by-zero panic. -/
theorem c7_no_division_by_zero (N : Nat) (seq : List Char) :
    play N seq ≠ .error SimErr.divZero := by
  intro h
  unfold play at h
  split at h
  · next e heq =>
    injection h with h
    subst h
    rcases detect_error_cases seq N 0 initialChamber 0 0 [] _ heq with h2 | h2 | h2 <;>
      exact SimErr.noConfusion h2
  · next heq =>
    injection h with h
    exact SimErr.noConfusion h
  · next ci heq =>
    split at h
    · next hz =>
      have hpos := detect_cycle_pos seq N 0 initialChamber 0 0 [] ci
        (by intro p hp; exact absurd hp (List.not_mem_nil p)) heq
      omega
    · next hz =>
      simp only [] at h
      split at h
      · next e heq2 =>
        injection h with h
        subst h
        rcases runDrops_error_cases heq2 with h2 | h2 | h2 <;>
          exact SimErr.noConfusion h2
      · exact Except.noConfusion h

/-- Witness for C7 at a concrete input. -/
theorem c7_witness : play 3 ['>'] ≠ .error SimErr.divZero :=
  c7_no_division_by_zero 3 ['>']

/-! ### Occupancy invariant: every cell stays 0 or 1 -/

theorem getD_ge {α : Type} (d : α) : ∀ (l : List α) (i : Nat), l.length ≤ i → l.getD i d = d := by
  intro l
  induction l with
  | nil => intro i _; cases i <;> rfl
  | cons a tl ih =>
    intro i hi
    cases i with
    | zero => simp at hi
    | succ j => exact ih j (by simpa using hi)

theorem getD_append_lt {α : Type} (d : α) :
    ∀ (l l' : List α) (i : Nat), i < l.length → (l ++ l').getD i d = l.getD i d := by
  intro l
  induction l with
  | nil => intro l' i hi; simp at hi
  | cons a tl ih =>
    intro l' i hi
    cases i with
    | zero => rfl
    | succ j => exact ih l' j (by simpa using hi)

theorem getD_append_ge {α : Type} (d : α) :
    ∀ (l l' : List α) (i : Nat), l.length ≤ i → (l ++ l').getD i d = l'.getD (i - l.length) d := by
  intro l
  induction l with
  | nil => intro l' i _; rfl
  | cons a tl ih =>
    intro l' i hi
    cases i with
    | zero => simp at hi
    | succ j => simpa using ih l' j (by simpa using hi)

theorem getD_drop {α : Type} (d : α) :
    ∀ (l : List α) (n i : Nat), (l.drop n).getD i d = l.getD (n + i) d := by
  intro l
  induction l with
  | nil => intro n i; simp [List.drop_nil]
  | cons a tl ih =>
    intro n i
    cases n with
    | zero => simp
    | succ m =>
      have h2 : m + 1 + i = (m + i) + 1 := by omega
      rw [h2]
      exact ih m i

theorem getD_replicate {α : Type} (a d : α) :
    ∀ (n i : Nat), i < n → (List.replicate n a).getD i d = a := by
  intro n
  induction n with
  | zero => intro i hi; omega
  | succ m ih =>
    intro i hi
    cases i with
    | zero => rfl
    | succ j => exact ih j (by omega)

theorem intersects_at_ge (chamber rock : Grid) (y : Nat) (hy : chamber.length ≤ y) :
    intersects_at chamber rock y = false := by
  unfold intersects_at
  rw [List.any_eq_false]
  intro i hi
  have hnot : ¬ (y + i < chamber.length) := by omega
  simp [hnot]

theorem good_push_left {rock : Grid} (h : Good rock) : Good (try_push_left rock) := by
  unfold try_push_left
  split
  · exact h
  · obtain ⟨hlen, hle⟩ := h
    constructor
    · intro r hr
      obtain ⟨r0, hr0, rfl⟩ := List.mem_map.1 hr
      have h7 := hlen r0 hr0
      simp [h7]
    · intro r hr x hx
      obtain ⟨r0, hr0, rfl⟩ := List.mem_map.1 hr
      rcases List.mem_append.1 hx with hx2 | hx2
      · exact hle r0 hr0 x (List.tail_subset r0 hx2)
      · rcases List.mem_singleton.1 hx2 with rfl
        exact Nat.zero_le 1

theorem good_push_right {rock : Grid} (h : Good rock) : Good (try_push_right rock) := by
  unfold try_push_right
  split
  · exact h
  · obtain ⟨hlen, hle⟩ := h
    constructor
    · intro r hr
      obtain ⟨r0, hr0, rfl⟩ := List.mem_map.1 hr
      have h7 := hlen r0 hr0
      simp [h7]
    · intro r hr x hx
      obtain ⟨r0, hr0, rfl⟩ := List.mem_map.1 hr
      rcases List.mem_cons.1 hx with rfl | hx2
      · exact Nat.zero_le 1
      · exact hle r0 hr0 x (List.take_subset 6 r0 hx2)

theorem windPush_ok_good {chamber : Grid} {seq : List Char} {rock : Grid}
    {idx y : Nat} {r2 : Grid} {i2 : Nat}
    (hr : Good rock)
    (h : windPush chamber seq rock idx y = .ok (r2, i2)) : Good r2 := by
  unfold windPush at h
  split at h
  · injection h with hp
    injection hp with h1 _
    exact h1 ▸ hr
  · split at h
    · injection h with hp
      injection hp with h1 _
      rw [← h1]
      split
      · exact hr
      · exact good_push_left hr
    · split at h
      · injection h with hp
        injection hp with h1 _
        rw [← h1]
        split
        · exact hr
        · exact good_push_right hr
      · exact Except.noConfusion h

theorem windPush_ok_free {chamber : Grid} {seq : List Char} {rock : Grid}
    {idx y : Nat} {r2 : Grid} {i2 : Nat}
    (hfree : intersects_at chamber rock y = false)
    (h : windPush chamber seq rock idx y = .ok (r2, i2)) :
    intersects_at chamber r2 y = false := by
  unfold windPush at h
  split at h
  · injection h with hp
    injection hp with h1 _
    exact h1 ▸ hfree
  · split at h
    · injection h with hp
      injection hp with h1 _
      rw [← h1]
      split
      · exact hfree
      · next hc => exact Bool.eq_false_iff.mpr hc
    · split at h
      · injection h with hp
        injection hp with h1 _
        rw [← h1]
        split
        · exact hfree
        · next hc => exact Bool.eq_false_iff.mpr hc
      · exact Except.noConfusion h

theorem fallLoop_ok_inv (chamber : Grid) (seq : List Char) :
    ∀ y rock idx steps r2 y2 s2 i2,
      Good rock →
      intersects_at chamber rock y = false →
      fallLoop chamber seq y rock idx steps = .ok (r2, y2, s2, i2) →
      Good r2 ∧ intersects_at chamber r2 y2 = false := by
  intro y
  induction y with
  | zero =>
    intro rock idx steps r2 y2 s2 i2 _ _ h
    rw [fallLoop_zero] at h
    split at h
    · exact Except.noConfusion h
    · exact Except.noConfusion h
  | succ k ih =>
    intro rock idx steps r2 y2 s2 i2 hg hfree h
    rw [fallLoop_succ] at h
    split at h
    · exact Except.noConfusion h
    · next rock2 idx2 heq =>
      have hg2 := windPush_ok_good hg heq
      have hfree2 := windPush_ok_free hfree heq
      split at h
      · simp only [Except.ok.injEq, Prod.mk.injEq] at h
        obtain ⟨h1, h2, -, -⟩ := h
        subst h1
        subst h2
        exact ⟨hg2, hfree2⟩
      · next hI =>
        exact ih rock2 idx2 (steps + 1) r2 y2 s2 i2 hg2 (Bool.eq_false_iff.mpr hI) h

theorem getD_mem_of_lt {α : Type} (d : α) :
    ∀ (l : List α) (i : Nat), i < l.length → l.getD i d ∈ l := by
  intro l
  induction l with
  | nil => intro i hi; simp at hi
  | cons a tl ih =>
    intro i hi
    cases i with
    | zero => exact List.mem_cons_self a tl
    | succ j => exact List.mem_cons_of_mem a (ih j (by simpa using hi))

theorem rowAt_extend_lt {c : Grid} {n j : Nat} (hj : j < c.length) :
    rowAt (extendChamber c n) j = rowAt c j := by
  unfold extendChamber rowAt
  split
  · exact getD_append_lt [] c _ j hj
  · rfl

theorem rowAt_extend_ge {c : Grid} {n j : Nat} (hj : c.length ≤ j)
    (hj2 : j < (extendChamber c n).length) :
    rowAt (extendChamber c n) j = List.replicate 7 0 := by
  rw [extendChamber_length] at hj2
  unfold extendChamber rowAt
  split
  · next hlt =>
    rw [getD_append_ge [] c _ j hj]
    exact getD_replicate _ [] _ _ (by omega)
  · next hlt => omega

theorem good_extend {c : Grid} (n : Nat) (hc : Good c) : Good (extendChamber c n) := by
  obtain ⟨h7, hle⟩ := hc
  unfold extendChamber
  split
  · constructor
    · intro r hr
      rcases List.mem_append.1 hr with h | h
      · exact h7 r h
      · rw [List.eq_of_mem_replicate h]
        simp
    · intro r hr x hx
      rcases List.mem_append.1 hr with h | h
      · exact hle r h x hx
      · rw [List.eq_of_mem_replicate h] at hx
        rw [List.eq_of_mem_replicate hx]
        exact Nat.zero_le 1
  · exact ⟨h7, hle⟩

theorem zipWith_replicate_zero :
    ∀ (n : Nat) (r : List Nat), List.zipWith (· + ·) (List.replicate n 0) r = r.take n := by
  intro n
  induction n with
  | zero => intro r; simp
  | succ m ih =>
    intro r
    cases r with
    | nil => simp
    | cons a tl => simp [List.replicate_succ, ih tl]

theorem addRowsTo_good :
    ∀ (rows rock : Grid),
      (∀ r ∈ rows, r.length = 7) →
      (∀ r ∈ rock, r.length = 7) →
      (∀ i, ∀ x ∈ List.zipWith (· + ·) (rowAt rows i) (rowAt rock i), x ≤ 1) →
      (∀ r ∈ rows, ∀ x ∈ r, x ≤ 1) →
      ∀ r ∈ addRowsTo rows rock, r.length = 7 ∧ ∀ x ∈ r, x ≤ 1 := by
  intro rows
  induction rows with
  | nil =>
    intro rock _ _ _ _ r hr
    cases rock with
    | nil => cases hr
    | cons a as => cases hr
  | cons row rtl ih =>
    intro rock hlen7 rocklen hzip hle r hr
    cases rock with
    | nil => exact ⟨hlen7 r hr, hle r hr⟩
    | cons a as =>
      rcases List.mem_cons.1 hr with rfl | hr2
      · constructor
        · simp [List.length_zipWith, hlen7 row (by simp), rocklen a (by simp)]
        · intro x hx
          exact hzip 0 x hx
      · refine ih as ?_ ?_ ?_ ?_ r hr2
        · intro r2 h2
          exact hlen7 r2 (List.mem_cons_of_mem _ h2)
        · intro r2 h2
          exact rocklen r2 (List.mem_cons_of_mem _ h2)
        · intro i x hx
          exact hzip (i + 1) x hx
        · intro r2 h2 x hx
          exact hle r2 (List.mem_cons_of_mem _ h2) x hx

theorem place_good {chamber rock : Grid} {y : Nat}
    (hc : Good chamber) (hr : Good rock)
    (hfree : intersects_at chamber rock y = false) :
    Good (place chamber rock y) := by
  have hext : Good (extendChamber chamber (y + rock.length)) := good_extend _ hc
  obtain ⟨hext7, hextle⟩ := hext
  have hfree2 := List.any_eq_false.1 hfree
  have hzip : ∀ i, ∀ x ∈ List.zipWith (· + ·)
      (rowAt ((extendChamber chamber (y + rock.length)).drop y) i) (rowAt rock i), x ≤ 1 := by
    intro i x hx
    have hdrop : rowAt ((extendChamber chamber (y + rock.length)).drop y) i =
        rowAt (extendChamber chamber (y + rock.length)) (y + i) := by
      unfold rowAt
      exact getD_drop [] _ y i
    rw [hdrop] at hx
    by_cases hirock : i < rock.length
    · by_cases hylen : y + i < chamber.length
      · rw [rowAt_extend_lt hylen] at hx
        have hmem : i ∈ List.range rock.length := List.mem_range.2 hirock
        have := hfree2 i hmem
        simp only [Bool.and_eq_true, decide_eq_true_eq, not_and, List.any_eq_true,
          not_exists] at this
        have h2 := this hylen
        simp only [not_exists, not_and, decide_eq_true_eq, not_lt] at h2
        by_contra hgt
        have hx2 := h2 x hx
        omega
      · have hyext : y + i < (extendChamber chamber (y + rock.length)).length := by
          rw [extendChamber_length]
          omega
        rw [rowAt_extend_ge (by omega) hyext] at hx
        rw [zipWith_replicate_zero] at hx
        have hxr : x ∈ rowAt rock i := List.take_subset _ _ hx
        have hrmem : rowAt rock i ∈ rock := getD_mem_of_lt [] rock i hirock
        exact hr.2 _ hrmem x hxr
    · have hrow : rowAt rock i = [] := getD_ge [] rock i (by omega)
      rw [hrow] at hx
      simp at hx
  unfold place
  constructor
  · intro r hrm
    rcases List.mem_append.1 hrm with h | h
    · exact hext7 r (List.take_subset _ _ h)
    · exact (addRowsTo_good _ rock
        (fun r2 h2 => hext7 r2 (List.drop_subset _ _ h2))
        hr.1 hzip
        (fun r2 h2 => hextle r2 (List.drop_subset _ _ h2)) r h).1
  · intro r hrm x hx
    rcases List.mem_append.1 hrm with h | h
    · exact hextle r (List.take_subset _ _ h) x hx
    · exact (addRowsTo_good _ rock
        (fun r2 h2 => hext7 r2 (List.drop_subset _ _ h2))
        hr.1 hzip
        (fun r2 h2 => hextle r2 (List.drop_subset _ _ h2)) r h).2 x hx

theorem fall_rock_ok_good {chamber rock : Grid} {seq : List Char} {idx : Nat}
    {c2 : Grid} {steps : Nat}
    (hc : Good chamber) (hr : Good rock)
    (h : fall_rock chamber rock seq idx = .ok (c2, steps)) : Good c2 := by
  obtain ⟨r2, y, i2, hloop, hc2⟩ := fall_rock_elim h
  have hfree0 : intersects_at chamber rock (chamber.length + 3) = false :=
    intersects_at_ge _ _ _ (by omega)
  obtain ⟨hg2, hfree2⟩ :=
    fallLoop_ok_inv chamber seq _ rock idx 0 r2 y steps i2 hr hfree0 hloop
  rw [hc2]
  exact place_good hc hg2 hfree2

theorem rockShape_good (i : Nat) : Good (rockShape i) := by
  have h5 : i % 5 < 5 := Nat.mod_lt _ (by omega)
  have : i % 5 = 0 ∨ i % 5 = 1 ∨ i % 5 = 2 ∨ i % 5 = 3 ∨ i % 5 = 4 := by omega
  rcases this with h | h | h | h | h <;> rw [rockShape, h] <;>
    exact ⟨by decide, by decide⟩

theorem runDrops_ok_good {seq : List Char} :
    ∀ {n : Nat} {chamber : Grid} {rockIdx jetIdx : Nat} {c : Grid},
      Good chamber →
      runDrops seq n chamber rockIdx jetIdx = .ok c → Good c := by
  intro n
  induction n with
  | zero =>
    intro chamber rockIdx jetIdx c hg h
    rw [runDrops] at h
    injection h with h
    exact h ▸ hg
  | succ k ih =>
    intro chamber rockIdx jetIdx c hg h
    obtain ⟨c2, steps, hf, _, hrest⟩ := runDrops_succ_elim h
    exact ih (fall_rock_ok_good hg (rockShape_good rockIdx) hf) hrest

/-- Claim C9: starting from the all-occupied one-row floor, after every
settled rock every cell of the chamber holds 0 or 1 — no cell is ever
double-occupied, because a rock position is only committed after
`intersects_at` verified it overlaps no occupied cell. -/
theorem c9_no_double_occupancy (seq : List Char) (N rockIdx jetIdx : Nat) (c : Grid)
    (h : runDrops seq N initialChamber rockIdx jetIdx = .ok c) :
    cellsLe1 c = true := by
  have hg : Good c := runDrops_ok_good ⟨by decide, by decide⟩ h
  simp only [cellsLe1, List.all_eq_true, decide_eq_true_eq]
  exact hg.2

/-- Witness for C9 at a concrete input. -/
theorem c9_witness : cellsLe1 initialChamber = true :=
  c9_no_double_occupancy ['>'] 0 0 0 initialChamber rfl

/-! ### Floor invariant: the gravity test never underflows -/

theorem sum_zero_all_zero : ∀ (l : List Nat), l.sum = 0 → ∀ x ∈ l, x = 0 := by
  intro l
  induction l with
  | nil => intro _ x hx; cases hx
  | cons a tl ih =>
    intro h x hx
    simp only [List.sum_cons, Nat.add_eq_zero] at h
    rcases List.mem_cons.1 hx with rfl | hx2
    · exact h.1
    · exact ih h.2 x hx2

theorem getD_take {α : Type} (d : α) :
    ∀ (l : List α) (n i : Nat), i < n → (l.take n).getD i d = l.getD i d := by
  intro l
  induction l with
  | nil => intro n i _; simp
  | cons a tl ih =>
    intro n i hi
    cases n with
    | zero => omega
    | succ m =>
      cases i with
      | zero => rfl
      | succ j => exact ih m j (by omega)

theorem getD_tail {α : Type} (d : α) (l : List α) (i : Nat) :
    (l.tail).getD i d = l.getD (i + 1) d := by
  cases l <;> rfl

theorem getD_zip_add :
    ∀ (l1 l2 : List Nat) (j : Nat), j < l1.length → j < l2.length →
      (List.zipWith (· + ·) l1 l2).getD j 0 = l1.getD j 0 + l2.getD j 0 := by
  intro l1
  induction l1 with
  | nil => intro l2 j h _; simp at h
  | cons a tl ih =>
    intro l2 j h1 h2
    cases l2 with
    | nil => simp at h2
    | cons b t2 =>
      cases j with
      | zero => rfl
      | succ m => exact ih t2 m (by simpa using h1) (by simpa using h2)

theorem intersects_at_zero_floor {chamber rock : Grid}
    (hf : Floor chamber) (hg : Good rock) (hh : Headed rock) :
    intersects_at chamber rock 0 = true := by
  obtain ⟨hlen, h7, hones⟩ := hf
  obtain ⟨j, hj7, hj1⟩ := hh
  have hrock_ne : rock ≠ [] := by
    intro h
    rw [h] at hj1
    simp [rowAt] at hj1
  have hrock_pos : 0 < rock.length := List.length_pos.2 hrock_ne
  have hr0mem : rowAt rock 0 ∈ rock := getD_mem_of_lt [] rock 0 hrock_pos
  have hr7 : (rowAt rock 0).length = 7 := hg.1 _ hr0mem
  unfold intersects_at
  rw [List.any_eq_true]
  refine ⟨0, List.mem_range.2 hrock_pos, ?_⟩
  have hc : 0 + 0 < chamber.length := by omega
  simp only [hc, decide_True, Bool.true_and, List.any_eq_true, decide_eq_true_eq]
  have hjz : (List.zipWith (· + ·) (rowAt chamber 0) (rowAt rock 0)).getD j 0 =
      (rowAt chamber 0).getD j 0 + (rowAt rock 0).getD j 0 :=
    getD_zip_add _ _ j (by omega) (by omega)
  have hcj : 1 ≤ (rowAt chamber 0).getD j 0 :=
    hones _ (getD_mem_of_lt 0 _ j (by omega))
  have hzlen : j < (List.zipWith (· + ·) (rowAt chamber 0) (rowAt rock 0)).length := by
    rw [List.length_zipWith]
    omega
  refine ⟨(List.zipWith (· + ·) (rowAt chamber 0) (rowAt rock 0)).getD j 0,
    getD_mem_of_lt 0 _ j hzlen, ?_⟩
  rw [hjz]
  omega

theorem headed_push_left {rock : Grid} (hh : Headed rock) :
    Headed (try_push_left rock) := by
  unfold try_push_left
  split
  · exact hh
  · next hcol =>
    obtain ⟨j, hj7, hj1⟩ := hh
    have hrock_ne : rock ≠ [] := by
      intro h
      rw [h] at hj1
      simp [rowAt] at hj1
    have hsum0 : colSum rock 0 = 0 := by omega
    have hhead : (rowAt rock 0).getD 0 0 = 0 := by
      refine sum_zero_all_zero _ hsum0 _ ?_
      exact List.mem_map_of_mem _ (getD_mem_of_lt [] rock 0 (List.length_pos.2 hrock_ne))
    have hmap : rowAt (rock.map (fun r => r.tail ++ [0])) 0 = (rowAt rock 0).tail ++ [0] := by
      cases rock with
      | nil => exact absurd rfl hrock_ne
      | cons r0 rt => rfl
    have hjpos : 1 ≤ j := by
      by_contra hc
      have : j = 0 := by omega
      rw [this, hhead] at hj1
      omega
    refine ⟨j - 1, by omega, ?_⟩
    rw [hmap]
    have htail : ((rowAt rock 0).tail).getD (j - 1) 0 = (rowAt rock 0).getD j 0 := by
      rw [getD_tail]
      congr 1
      omega
    by_cases hjt : j - 1 < ((rowAt rock 0).tail).length
    · rw [getD_append_lt 0 _ _ _ hjt, htail]
      exact hj1
    · have : (rowAt rock 0).getD j 0 = 0 := by
        rw [← htail]
        exact getD_ge 0 _ _ (by omega)
      rw [this] at hj1
      omega

theorem headed_push_right {rock : Grid} (hg : Good rock) (hh : Headed rock) :
    Headed (try_push_right rock) := by
  unfold try_push_right
  split
  · exact hh
  · next hcol =>
    obtain ⟨j, hj7, hj1⟩ := hh
    have hrock_ne : rock ≠ [] := by
      intro h
      rw [h] at hj1
      simp [rowAt] at hj1
    have hsum0 : colSum rock 6 = 0 := by omega
    have h6 : (rowAt rock 0).getD 6 0 = 0 := by
      refine sum_zero_all_zero _ hsum0 _ ?_
      exact List.mem_map_of_mem _ (getD_mem_of_lt [] rock 0 (List.length_pos.2 hrock_ne))
    have hj6 : j < 6 := by
      rcases Nat.lt_or_ge j 6 with h | h
      · exact h
      · have : j = 6 := by omega
        rw [this, h6] at hj1
        omega
    have hmap : rowAt (rock.map (fun r => 0 :: r.take 6)) 0 = 0 :: (rowAt rock 0).take 6 := by
      cases rock with
      | nil => exact absurd rfl hrock_ne
      | cons r0 rt => rfl
    refine ⟨j + 1, by omega, ?_⟩
    rw [hmap]
    have : ((0 : Nat) :: (rowAt rock 0).take 6).getD (j + 1) 0 = ((rowAt rock 0).take 6).getD j 0 := rfl
    rw [this, getD_take 0 _ 6 j hj6]
    exact hj1

theorem windPush_ok_headed {chamber : Grid} {seq : List Char} {rock : Grid}
    {idx y : Nat} {r2 : Grid} {i2 : Nat}
    (hg : Good rock) (hh : Headed rock)
    (h : windPush chamber seq rock idx y = .ok (r2, i2)) : Headed r2 := by
  unfold windPush at h
  split at h
  · injection h with hp
    injection hp with h1 _
    exact h1 ▸ hh
  · split at h
    · injection h with hp
      injection hp with h1 _
      rw [← h1]
      split
      · exact hh
      · exact headed_push_left hh
    · split at h
      · injection h with hp
        injection hp with h1 _
        rw [← h1]
        split
        · exact hh
        · exact headed_push_right hg hh
      · exact Except.noConfusion h

theorem fallLoop_no_underflow {chamber : Grid} {seq : List Char}
    (hf : Floor chamber) :
    ∀ y rock idx steps, Good rock → Headed rock → 1 ≤ y →
      fallLoop chamber seq y rock idx steps ≠ .error SimErr.underflow := by
  intro y
  induction y with
  | zero => intro rock idx steps _ _ hy; omega
  | succ k ih =>
    intro rock idx steps hg hh _ h
    rw [fallLoop_succ] at h
    split at h
    · next e2 heq =>
      injection h with h
      rw [h] at heq
      have := windPush_error_badChar heq
      exact SimErr.noConfusion this
    · next rock2 idx2 heq =>
      have hg2 := windPush_ok_good hg heq
      have hh2 := windPush_ok_headed hg hh heq
      split at h
      · exact Except.noConfusion h
      · next hI =>
        cases k with
        | zero => exact hI (intersects_at_zero_floor hf hg2 hh2)
        | succ m => exact ih rock2 idx2 (steps + 1) hg2 hh2 (by omega) h

theorem fallLoop_ok_pos (chamber : Grid) (seq : List Char) :
    ∀ y rock idx steps r2 y2 s2 i2,
      fallLoop chamber seq y rock idx steps = .ok (r2, y2, s2, i2) → 1 ≤ y2 := by
  intro y
  induction y with
  | zero =>
    intro rock idx steps r2 y2 s2 i2 h
    rw [fallLoop_zero] at h
    split at h
    · exact Except.noConfusion h
    · exact Except.noConfusion h
  | succ k ih =>
    intro rock idx steps r2 y2 s2 i2 h
    rw [fallLoop_succ] at h
    split at h
    · exact Except.noConfusion h
    · next rock2 idx2 heq =>
      split at h
      · simp only [Except.ok.injEq, Prod.mk.injEq] at h
        omega
      · exact ih rock2 idx2 (steps + 1) r2 y2 s2 i2 h

theorem fall_rock_no_underflow {chamber rock : Grid} {seq : List Char} {idx : Nat}
    (hf : Floor chamber) (hg : Good rock) (hh : Headed rock) :
    fall_rock chamber rock seq idx ≠ .error SimErr.underflow := by
  intro h
  unfold fall_rock at h
  split at h
  · next e2 heq =>
    injection h with h
    rw [h] at heq
    exact fallLoop_no_underflow hf _ rock idx 0 hg hh (by omega) heq
  · exact Except.noConfusion h

theorem floor_place {chamber rock2 : Grid} {y : Nat}
    (hf : Floor chamber) (hy : 1 ≤ y) : Floor (place chamber rock2 y) := by
  obtain ⟨hpos, h7, hones⟩ := hf
  have hext0 : rowAt (extendChamber chamber (y + rock2.length)) 0 = rowAt chamber 0 :=
    rowAt_extend_lt hpos
  have hextpos : 0 < (extendChamber chamber (y + rock2.length)).length := by
    rw [extendChamber_length]
    omega
  have htake : 0 < ((extendChamber chamber (y + rock2.length)).take y).length := by
    rw [List.length_take]
    omega
  have hrow : rowAt (place chamber rock2 y) 0 = rowAt chamber 0 := by
    unfold place rowAt
    rw [getD_append_lt [] _ _ 0 htake, getD_take [] _ y 0 (by omega)]
    exact hext0
  refine ⟨?_, ?_, ?_⟩
  · rw [place_length]
    omega
  · rw [hrow]
    exact h7
  · rw [hrow]
    exact hones

theorem rockShape_headed (i : Nat) : Headed (rockShape i) := by
  have : i % 5 = 0 ∨ i % 5 = 1 ∨ i % 5 = 2 ∨ i % 5 = 3 ∨ i % 5 = 4 := by omega
  rcases this with h | h | h | h | h <;> rw [rockShape, h] <;> unfold Headed <;> decide

theorem runDrops_no_underflow {seq : List Char} :
    ∀ {n : Nat} {chamber : Grid} {rockIdx jetIdx : Nat},
      Floor chamber → Good chamber →
      runDrops seq n chamber rockIdx jetIdx ≠ .error SimErr.underflow := by
  intro n
  induction n with
  | zero =>
    intro chamber rockIdx jetIdx _ _ h
    exact Except.noConfusion h
  | succ k ih =>
    intro chamber rockIdx jetIdx hf hg h
    rw [runDrops] at h
    split at h
    · next e2 heq =>
      injection h with h
      rw [h] at heq
      exact fall_rock_no_underflow hf (rockShape_good rockIdx) (rockShape_headed rockIdx) heq
    · next c2 steps heq =>
      split at h
      · injection h with h
        exact SimErr.noConfusion h
      · obtain ⟨r2, y, i2, hloop, hc2⟩ := fall_rock_elim heq
        have hy : 1 ≤ y := fallLoop_ok_pos chamber seq _ _ _ _ _ _ _ _ hloop
        have hf2 : Floor c2 := by
          rw [hc2]
          exact floor_place hf hy
        have hg2 : Good c2 := fall_rock_ok_good hg (rockShape_good rockIdx) heq
        exact ih hf2 hg2 h

/-- Claim C10: the simulation starts from a chamber whose single row 0 is a
fully occupied floor, and consequently the `y - 1` in the gravity-fall test
never underflows in any simulation from that chamber (every rock comes to
rest at a row `y ≥ 1`; `play` then subtracts 1 from the row count so the
floor row is excluded from every reported height). -/
theorem c10_floor_no_underflow :
    initialChamber = [List.replicate 7 1] ∧
    ∀ (seq : List Char) (N rockIdx jetIdx : Nat),
      runDrops seq N initialChamber rockIdx jetIdx ≠ .error SimErr.underflow :=
  ⟨rfl, fun seq N rockIdx jetIdx =>
    runDrops_no_underflow ⟨by decide, by decide, by decide⟩ ⟨by decide, by decide⟩⟩

/-- Witness for C10 at a concrete input. -/
theorem c10_witness : runDrops ['>'] 3 initialChamber 0 0 ≠ .error SimErr.underflow :=
  c10_floor_no_underflow.2 ['>'] 3 0 0

/-! ### Fingerprint depth: equal top-10 rows do not pin down the evolution -/

/-- Claim C4 counterexample: `chamberA` and `chamberB` have equal topmost-10
rows, and with equal rock index 0 and equal wind index 0 their fingerprints
are equal, yet five drops with wind `"<"` gain 1 row of height on `chamberA`
(11 to 12 rows) and 0 rows on `chamberB` (26 to 26 rows): equal fingerprints
do not guarantee identical sequences of height gains. -/
theorem c4_counterexample :
    chamberA.drop (chamberA.length - 10) = chamberB.drop (chamberB.length - 10) ∧
    (runDrops ['<'] 5 chamberA 0 0).map List.length = .ok 12 ∧
    (runDrops ['<'] 5 chamberB 0 0).map List.length = .ok 26 ∧
    12 - chamberA.length ≠ 26 - chamberB.length :=
  ⟨by rfl, by rfl, by rfl, by decide⟩

theorem intersects_congr {c1 c2 : Grid} {r : Nat} (rock : Grid) (y : Nat)
    (hlen : c1.length = c2.length)
    (hrows : ∀ j, r ≤ j → rowAt c1 j = rowAt c2 j)
    (hy : r ≤ y) :
    intersects_at c1 rock y = intersects_at c2 rock y := by
  unfold intersects_at
  congr 1
  funext i
  rw [hlen, hrows (y + i) (by omega)]

theorem windPush_congr {c1 c2 : Grid} {r : Nat}
    (hlen : c1.length = c2.length)
    (hrows : ∀ j, r ≤ j → rowAt c1 j = rowAt c2 j)
    (seq : List Char) (rock : Grid) (idx y : Nat) (hy : r ≤ y) :
    windPush c1 seq rock idx y = windPush c2 seq rock idx y := by
  unfold windPush
  cases windAt seq idx with
  | none => rfl
  | some c =>
    rw [intersects_congr (try_push_left rock) y hlen hrows hy,
        intersects_congr (try_push_right rock) y hlen hrows hy]

theorem fallLoop_rest_le (chamber : Grid) (seq : List Char) :
    ∀ y rock idx steps r2 y2 s2 i2,
      fallLoop chamber seq y rock idx steps = .ok (r2, y2, s2, i2) → y2 ≤ y := by
  intro y
  induction y with
  | zero =>
    intro rock idx steps r2 y2 s2 i2 h
    rw [fallLoop_zero] at h
    split at h
    · exact Except.noConfusion h
    · exact Except.noConfusion h
  | succ k ih =>
    intro rock idx steps r2 y2 s2 i2 h
    rw [fallLoop_succ] at h
    split at h
    · exact Except.noConfusion h
    · next rock2 idx2 heq =>
      split at h
      · simp only [Except.ok.injEq, Prod.mk.injEq] at h
        omega
      · have := ih rock2 idx2 (steps + 1) r2 y2 s2 i2 h
        omega

theorem fallLoop_congr {c1 c2 : Grid} {r : Nat}
    (hlen : c1.length = c2.length)
    (hrows : ∀ j, r ≤ j → rowAt c1 j = rowAt c2 j)
    (seq : List Char) :
    ∀ y rock idx steps r2 y2 s2 i2,
      fallLoop c1 seq y rock idx steps = .ok (r2, y2, s2, i2) →
      r + 1 ≤ y2 →
      fallLoop c2 seq y rock idx steps = .ok (r2, y2, s2, i2) := by
  intro y
  induction y with
  | zero =>
    intro rock idx steps r2 y2 s2 i2 h _
    rw [fallLoop_zero] at h
    split at h
    · exact Except.noConfusion h
    · exact Except.noConfusion h
  | succ k ih =>
    intro rock idx steps r2 y2 s2 i2 h hy2
    have hley := fallLoop_rest_le c1 seq (k + 1) rock idx steps r2 y2 s2 i2 h
    rw [fallLoop_succ] at h
    rw [fallLoop_succ]
    split at h
    · exact Except.noConfusion h
    · next rock2 idx2 hw =>
      have hwc : windPush c2 seq rock idx (k + 1) = .ok (rock2, idx2) := by
        rw [← windPush_congr hlen hrows seq rock idx (k + 1) (by omega)]
        exact hw
      rw [hwc]
      show (if intersects_at c2 rock2 k = true then Except.ok (rock2, k + 1, steps + 1, idx2)
            else fallLoop c2 seq k rock2 idx2 (steps + 1)) = Except.ok (r2, y2, s2, i2)
      split at h
      · next hI =>
        simp only [Except.ok.injEq, Prod.mk.injEq] at h
        obtain ⟨ha, hb, hcs, hd⟩ := h
        have hrk : r ≤ k := by omega
        have hIc : intersects_at c2 rock2 k = true := by
          rw [← intersects_congr rock2 k hlen hrows hrk]
          exact hI
        rw [if_pos hIc]
        simp [ha, hb, hcs, hd]
      · next hI =>
        have hlek := fallLoop_rest_le c1 seq k rock2 idx2 (steps + 1) r2 y2 s2 i2 h
        have hrk : r ≤ k := by omega
        have hIc : ¬ intersects_at c2 rock2 k = true := by
          rw [← intersects_congr rock2 k hlen hrows hrk]
          exact hI
        rw [if_neg hIc]
        exact ih rock2 idx2 (steps + 1) r2 y2 s2 i2 h hy2

/-- Claim C4 (amended): equal fingerprints alone do not guarantee identical
future height gains (see the counterexample); what does hold is the bounded
statement: two chambers of equal height that agree on their topmost 10 rows
give the same rock index and wind index the exact same descent — same rock
cells, resting row, step count and wind position — and the same height gain,
provided the rock comes to rest inside the topmost 10 rows. -/
theorem c4_equal_fingerprint_single_drop {c1 c2 : Grid} {seq : List Char}
    {k jet : Nat} {rock2 : Grid} {y2 s2 i2 : Nat}
    (hlen : c1.length = c2.length)
    (h10 : 10 ≤ c1.length)
    (htop : ∀ j, c1.length - 10 ≤ j → rowAt c1 j = rowAt c2 j)
    (hfall : fallLoop c1 seq (c1.length + 3) (rockShape k) jet 0 = .ok (rock2, y2, s2, i2))
    (hrest : c1.length - 9 ≤ y2) :
    fallLoop c2 seq (c2.length + 3) (rockShape k) jet 0 = .ok (rock2, y2, s2, i2) ∧
    (place c2 rock2 y2).length - c2.length = (place c1 rock2 y2).length - c1.length := by
  constructor
  · have hlen2 : c2.length + 3 = c1.length + 3 := by omega
    rw [hlen2]
    have hy2b : c1.length - 10 + 1 ≤ y2 := by omega
    exact @fallLoop_congr c1 c2 (c1.length - 10) hlen htop seq (c1.length + 3) (rockShape k)
      jet 0 rock2 y2 s2 i2 hfall hy2b
  · rw [place_length, place_length, ← hlen]

/-- Witness for the amended C4 at a concrete input: `chamberC` and `chamberD`
differ only in their bottom row (below the top 10), and the first drop with
wind `">"` behaves identically on both, with equal height gain. -/
theorem c4_witness :
    fallLoop chamberD ['>'] (chamberD.length + 3) (rockShape 0) 0 0 =
      .ok ([[0,0,0,1,1,1,1]], 11, 4, 4) ∧
    (place chamberD [[0,0,0,1,1,1,1]] 11).length - chamberD.length =
      (place chamberC [[0,0,0,1,1,1,1]] 11).length - chamberC.length :=
  @c4_equal_fingerprint_single_drop chamberC chamberD ['>'] 0 0 [[0,0,0,1,1,1,1]] 11 4 4
    (by decide) (by decide)
    (by
      intro j hj
      cases j with
      | zero => exact absurd hj (by decide)
      | succ n => rfl)
    (by rfl) (by decide)

/-! ### The state of the driver loop, made explicit -/

theorem runDrops_eq_iter (seq : List Char) :
    ∀ (n : Nat) (chamber : Grid) (rockIdx jetIdx : Nat),
      runDrops seq n chamber rockIdx jetIdx =
        (iterDrops seq n (chamber, rockIdx, jetIdx)).map (fun st => st.1) := by
  intro n
  induction n with
  | zero => intro c r j; rfl
  | succ k ih =>
    intro c r j
    rw [runDrops, iterDrops]
    cases hf : fall_rock c (rockShape r) seq j with
    | error e =>
      simp only [stepDrop, hf]
      rfl
    | ok p =>
      obtain ⟨c2, steps⟩ := p
      by_cases hs : seq.length = 0
      · simp only [stepDrop, hf, if_pos hs]
        rfl
      · simp only [stepDrop, hf, if_neg hs]
        exact ih c2 ((r + 1) % 5) ((j + steps) % seq.length)

theorem iterDrops_add (seq : List Char) :
    ∀ (a b : Nat) (st : Grid × Nat × Nat),
      iterDrops seq (a + b) st =
        match iterDrops seq a st with
        | .error e => .error e
        | .ok st2 => iterDrops seq b st2 := by
  intro a
  induction a with
  | zero => intro b st; simp [iterDrops]
  | succ k ih =>
    intro b st
    have hadd : k + 1 + b = (k + b) + 1 := by omega
    rw [hadd, iterDrops, iterDrops]
    cases hs : stepDrop seq st <;> simp [hs, ih]

theorem iterDrops_step_right {seq : List Char} {i : Nat}
    {st0 st st2 : Grid × Nat × Nat}
    (h1 : iterDrops seq i st0 = .ok st) (h2 : stepDrop seq st = .ok st2) :
    iterDrops seq (i + 1) st0 = .ok st2 := by
  rw [iterDrops_add seq i 1 st0, h1]
  simp [iterDrops, h2]

theorem stepDrop_mono {seq : List Char} {st st2 : Grid × Nat × Nat}
    (h : stepDrop seq st = .ok st2) : st.1.length ≤ st2.1.length := by
  obtain ⟨c, r, j⟩ := st
  rw [stepDrop] at h
  split at h
  · exact Except.noConfusion h
  · next c2 steps hf =>
    split at h
    · exact Except.noConfusion h
    · injection h with h
      have := fall_rock_length_le hf
      rw [← h]
      exact this

theorem iterDrops_mono {seq : List Char} :
    ∀ {n : Nat} {st st2 : Grid × Nat × Nat},
      iterDrops seq n st = .ok st2 → st.1.length ≤ st2.1.length := by
  intro n
  induction n with
  | zero =>
    intro st st2 h
    rw [iterDrops] at h
    injection h with h
    rw [h]
  | succ k ih =>
    intro st st2 h
    rw [iterDrops] at h
    split at h
    · exact Except.noConfusion h
    · next stm hs =>
      exact Nat.le_trans (stepDrop_mono hs) (ih h)

theorem lookupVisited_mem_self {m : VisitMap} {k : VisitKey} {v : Nat × Nat}
    (h : lookupVisited m k = some v) : (k, v) ∈ m := by
  unfold lookupVisited at h
  split at h
  · next p heq =>
    injection h with h
    have hm := List.mem_of_find?_eq_some heq
    have hp := List.find?_some heq
    rw [decide_eq_true_eq] at hp
    have hpkv : p = (k, v) := by
      obtain ⟨p1, p2⟩ := p
      simp only at hp h
      rw [hp, h]
    rwa [hpkv] at hm
  · exact Option.noConfusion h

theorem iterDrops_between {seq : List Char} {a b : Nat} {st0 sta stb : Grid × Nat × Nat}
    (hab : a ≤ b)
    (ha : iterDrops seq a st0 = .ok sta)
    (hb : iterDrops seq b st0 = .ok stb) :
    iterDrops seq (b - a) sta = .ok stb := by
  have h : a + (b - a) = b := by omega
  rw [← h, iterDrops_add] at hb
  split at hb
  · next e heq =>
    rw [ha] at heq
    exact Except.noConfusion heq
  · next st2 heq =>
    rw [ha] at heq
    injection heq with heq
    rw [← heq] at hb
    exact hb

theorem detect_corresponds (seq : List Char) :
    ∀ fuel i chamber rockIdx jetIdx visited ci,
      iterDrops seq i (initialChamber, 0, 0) = .ok (chamber, rockIdx, jetIdx) →
      VisitedOk seq visited i →
      detect seq fuel i chamber rockIdx jetIdx visited = .ok (some ci) →
      ∃ csC,
        iterDrops seq ci.start_steps (initialChamber, 0, 0) = .ok (csC, ci.rock_at, ci.jet_at) ∧
        csC.length = ci.start_h ∧
        iterDrops seq (ci.start_steps + ci.cycle_len) (initialChamber, 0, 0) =
          .ok (ci.after_cycle, ci.rock_at, ci.jet_at) ∧
        ci.start_h + ci.cycle_height = ci.after_cycle.length ∧
        0 < ci.cycle_len ∧
        ci.start_steps + ci.cycle_len < i + fuel := by
  intro fuel
  induction fuel with
  | zero =>
    intro i chamber rockIdx jetIdx visited ci _ _ hdet
    rw [detect] at hdet
    injection hdet with hdet
    exact Option.noConfusion hdet
  | succ f ih =>
    intro i chamber rockIdx jetIdx visited ci hstate hvis hdet
    rw [detect] at hdet
    simp only [] at hdet
    split at hdet
    · next h10 =>
      split at hdet
      · next cs ch hlook =>
        injection hdet with hdet
        injection hdet with hdet
        have hmem := lookupVisited_mem_self hlook
        obtain ⟨hlt, c, r, j, hit, hlenc, hkey⟩ := hvis _ hmem
        simp only at hlt hit hlenc hkey
        injection hkey with hk1 hkey
        injection hkey with hk2 hk3
        subst hk1
        subst hk2
        have hmonost : c.length ≤ chamber.length := by
          have hbet := iterDrops_between (Nat.le_of_lt hlt) hit hstate
          exact iterDrops_mono hbet
        refine ⟨c, ?_, ?_, ?_, ?_, ?_, ?_⟩ <;> rw [← hdet]
        · exact hit
        · exact hlenc
        · have hsum : cs + (i - cs) = i := by omega
          simp only [hsum]
          exact hstate
        · simp only []
          omega
        · simp only []
          omega
        · simp only []
          omega
      · next hlook =>
        split at hdet
        · exact Except.noConfusion hdet
        · next c2 steps hfall =>
          split at hdet
          · exact Except.noConfusion hdet
          · next hs =>
            have hstep : stepDrop seq (chamber, rockIdx, jetIdx) =
                .ok (c2, (rockIdx + 1) % 5, (jetIdx + steps) % seq.length) := by
              rw [stepDrop, hfall]
              simp [hs]
            have hstate2 := iterDrops_step_right hstate hstep
            have hvis2 : VisitedOk seq
                (visited ++ [((rockIdx, jetIdx, chamber.drop (chamber.length - 10)),
                  (i, chamber.length))]) (i + 1) := by
              intro p hp
              rcases List.mem_append.1 hp with hp2 | hp2
              · obtain ⟨hlt, hrest⟩ := hvis p hp2
                exact ⟨by omega, hrest⟩
              · rcases List.mem_singleton.1 hp2 with rfl
                exact ⟨Nat.lt_succ_self i, chamber, rockIdx, jetIdx, hstate, rfl, rfl⟩
            obtain ⟨csC, h1, h2, h3, h4, h5, h6⟩ := ih (i + 1) c2 _ _ _ ci hstate2 hvis2 hdet
            exact ⟨csC, h1, h2, h3, h4, h5, by omega⟩
    · next h10 =>
      split at hdet
      · exact Except.noConfusion hdet
      · next c2 steps hfall =>
        split at hdet
        · exact Except.noConfusion hdet
        · next hs =>
          have hstep : stepDrop seq (chamber, rockIdx, jetIdx) =
              .ok (c2, (rockIdx + 1) % 5, (jetIdx + steps) % seq.length) := by
            rw [stepDrop, hfall]
            simp [hs]
          have hstate2 := iterDrops_step_right hstate hstep
          have hvis2 : VisitedOk seq visited (i + 1) := by
            intro p hp
            obtain ⟨hlt, hrest⟩ := hvis p hp
            exact ⟨by omega, hrest⟩
          obtain ⟨csC, h1, h2, h3, h4, h5, h6⟩ := ih (i + 1) c2 _ _ _ ci hstate2 hvis2 hdet
          exact ⟨csC, h1, h2, h3, h4, h5, by omega⟩

theorem iterDrops_prefix_ok {seq : List Char} {a b : Nat} {st0 stb : Grid × Nat × Nat}
    (hab : a ≤ b) (hb : iterDrops seq b st0 = .ok stb) :
    ∃ sta, iterDrops seq a st0 = .ok sta := by
  have h : a + (b - a) = b := by omega
  rw [← h, iterDrops_add] at hb
  split at hb
  · exact Except.noConfusion hb
  · next st2 heq => exact ⟨st2, heq⟩

/-- Claim C1 (amended): the claim fails as stated (see the counterexample: a
detected fingerprint repeat need not make the run periodic).  What the
extrapolation arithmetic does guarantee: whenever a repeat is detected
before `N` and the run really is height-periodic from the first occurrence
on — every `cycle_step_length` further drops add exactly `cycle_height`
rows, up to `N` — then `play N` returns exactly the directly-simulated
height after `N` drops. -/
theorem c1_extrapolation_correct (N : Nat) (seq : List Char) (ci : CycleInfo) (c : Grid)
    (hdet : detect seq N 0 initialChamber 0 0 [] = .ok (some ci))
    (hdir : runDrops seq N initialChamber 0 0 = .ok c)
    (hper : ∀ t, ci.start_steps + ci.cycle_len + t ≤ N →
      (runDrops seq (ci.start_steps + ci.cycle_len + t) initialChamber 0 0).map List.length =
      (runDrops seq (ci.start_steps + t) initialChamber 0 0).map
        (fun l => List.length l + ci.cycle_height)) :
    play N seq = .ok (c.length - 1) := by
  have hinit : iterDrops seq 0 (initialChamber, 0, 0) = .ok (initialChamber, 0, 0) := rfl
  have hvis0 : VisitedOk seq [] 0 := fun p hp => absurd hp (List.not_mem_nil p)
  obtain ⟨csC, hcs, hcsh, hce, hheights, hpos, hbound⟩ :=
    detect_corresponds seq N 0 _ _ _ [] ci hinit hvis0 hdet
  obtain ⟨ac, jat, rat, cl, ch, sh, cs⟩ := ci
  simp only [] at hcs hcsh hce hheights hpos hbound hper ⊢
  -- the final state of the direct simulation
  rw [runDrops_eq_iter] at hdir
  cases hN : iterDrops seq N (initialChamber, 0, 0) with
  | error e =>
    rw [hN] at hdir
    exact Except.noConfusion hdir
  | ok stN =>
    rw [hN] at hdir
    injection hdir with hdir
    -- arithmetic setup
    have hclQ := Nat.div_add_mod (N - cs) cl
    have hmodlt : (N - cs) % cl < cl := Nat.mod_lt _ hpos
    have hQ1 : 1 ≤ (N - cs) / cl := (Nat.one_le_div_iff hpos).2 (by omega)
    have hmulc : (N - cs) / cl * cl = cl * ((N - cs) / cl) := Nat.mul_comm _ _
    have hR : N - cs - (N - cs) / cl * cl = (N - cs) % cl := by omega
    have hNsum : cs + ((N - cs) % cl) + (N - cs) / cl * cl = N := by omega
    -- extraction of the periodicity hypothesis at the state level
    have hext : ∀ (t : Nat), cs + cl + t ≤ N →
        ∀ {sta stb : Grid × Nat × Nat},
        iterDrops seq (cs + t) (initialChamber, 0, 0) = .ok sta →
        iterDrops seq (cs + cl + t) (initialChamber, 0, 0) = .ok stb →
        stb.1.length = sta.1.length + ch := by
      intro t ht sta stb hsa hsb
      have hp := hper t ht
      rw [runDrops_eq_iter, runDrops_eq_iter, hsa, hsb] at hp
      simp only [Except.map] at hp
      exact Except.ok.inj hp
    -- state after the start garbage plus the leftover remainder
    have hcsR : cs + (N - cs) % cl ≤ N := by omega
    obtain ⟨stR, hstR⟩ := iterDrops_prefix_ok hcsR hN
    -- heights gained over whole cycles, by induction on the cycle count
    have key : ∀ k, k ≤ (N - cs) / cl →
        ∃ stk, iterDrops seq (cs + (N - cs) % cl + k * cl) (initialChamber, 0, 0) = .ok stk ∧
          stk.1.length = stR.1.length + k * ch := by
      intro k
      induction k with
      | zero =>
        intro _
        refine ⟨stR, ?_, ?_⟩
        · simpa using hstR
        · omega
      | succ m ihm =>
        intro hm
        obtain ⟨stm, hstm, hlenm⟩ := ihm (by omega)
        have hsuccl : (m + 1) * cl = m * cl + cl := Nat.succ_mul m cl
        have hsucch : (m + 1) * ch = m * ch + ch := Nat.succ_mul m ch
        have hmle : (m + 1) * cl ≤ (N - cs) / cl * cl := Nat.mul_le_mul hm (Nat.le_refl cl)
        have hle : cs + (N - cs) % cl + (m + 1) * cl ≤ N := by omega
        obtain ⟨stm1, hstm1⟩ := iterDrops_prefix_ok hle hN
        have e1 : cs + ((N - cs) % cl + m * cl) = cs + (N - cs) % cl + m * cl := by omega
        have e2 : cs + cl + ((N - cs) % cl + m * cl) = cs + (N - cs) % cl + (m + 1) * cl := by
          omega
        have hlen1 : stm1.1.length = stm.1.length + ch := by
          refine hext ((N - cs) % cl + m * cl) (by omega) ?_ ?_
          · rw [e1]
            exact hstm
          · rw [e2]
            exact hstm1
        exact ⟨stm1, hstm1, by omega⟩
    -- identify the end of the run with the last cycle state
    obtain ⟨stQ, hstQ, hlenQ⟩ := key ((N - cs) / cl) (Nat.le_refl _)
    have hstQN : stQ = stN := by
      rw [hNsum] at hstQ
      rw [hstQ] at hN
      exact Except.ok.inj hN
    -- the replayed end garbage
    have hclQle : cl ≤ (N - cs) / cl * cl := by
      have h2 := Nat.mul_le_mul hQ1 (Nat.le_refl cl)
      omega
    have hceR : cs + cl + (N - cs) % cl ≤ N := by omega
    obtain ⟨stE, hstE⟩ := iterDrops_prefix_ok hceR hN
    have hlenE : stE.1.length = stR.1.length + ch := by
      refine hext ((N - cs) % cl) (by omega) ?_ hstE
      exact hstR
    have hEsplit : iterDrops seq ((N - cs) % cl) (ac, rat, jat) = .ok stE := by
      have h := hstE
      rw [show cs + cl + (N - cs) % cl = (cs + cl) + ((N - cs) % cl) from by omega,
        iterDrops_add] at h
      rw [hce] at h
      exact h
    have hcg : runDrops seq ((N - cs) % cl) ac rat jat = .ok stE.1 := by
      rw [runDrops_eq_iter, hEsplit]
      rfl
    -- monotonicity: the height at the first occurrence bounds the later one
    have hmono : csC.length ≤ stR.1.length := by
      have hbet := iterDrops_between (by omega) hcs hstR
      exact iterDrops_mono hbet
    -- the direct height expressed through the cycle count
    have hclen : c.length = stR.1.length + (N - cs) / cl * ch := by
      rw [← hdir, ← hstQN]
      exact hlenQ
    -- now unfold play
    rw [play, hdet]
    simp only []
    rw [if_neg (by omega : ¬ cl = 0)]
    rw [hR, hcg]
    show Except.ok (sh + (N - cs) / cl * ch + (stE.1.length - ac.length) - 1) =
      Except.ok (c.length - 1)
    congr 1
    omega

/-- Claim C1 counterexample: on the 27-character alternating wind sequence a
fingerprint repeat is detected well before 62 drops, and `play 62` returns
the extrapolated height 126, but direct simulation of exactly 62 drops gives
height 120.  The extrapolated height does not always equal the
directly-simulated height. -/
theorem c1_counterexample :
    (detect badSeq 62 0 initialChamber 0 0 []).map Option.isSome = .ok true ∧
    play 62 badSeq = .ok 126 ∧
    (runDrops badSeq 62 initialChamber 0 0).map (fun c => c.length - 1) = .ok 120 ∧
    (126 : Nat) ≠ 120 :=
  ⟨by rfl, by rfl, by rfl, by decide⟩

/-- Witness for the amended C1 at a concrete input: wind `">"`, target 15;
the run is genuinely periodic there, and `play` matches direct simulation. -/
theorem c1_witness : play 15 ['>'] = .ok (cW15.length - 1) :=
  c1_extrapolation_correct 15 ['>'] ciW cW15 (by rfl) (by rfl) (by
    intro t ht
    have he : ciW.start_steps + ciW.cycle_len = 9 := rfl
    rw [he] at ht
    have ht6 : t ≤ 6 := by omega
    interval_cases t <;> rfl)
